import Mathlib

/-!
Shallow embedding of the gdsyncpy repository core: the resilient HTTP
request runner with its declarative error-policy table
(`src/drive/http.py`), hierarchical path resolution and resource model
(`src/drive/api.py`), duplicate ranking (`src/commands/dedup.py`), sync
diffing and the checkpoint protocol (`src/commands/sync/sync.py`,
`src/commands/sync/state.py`).

Machine-level conventions: Python dicts keyed by request id become
association lists / id lists; Python sets become lists with
membership-based insertion; generators become returned lists; raised
exceptions become `Except` errors; the monotonic clock and per-request
outcomes of the remote service are supplied as explicit oracles.
-/

/-- An HTTP error signature as consumed by the policy layer:
`status` models `error.resp['status']` and `reason` models the parsed
`HttpErrorPolicy.reason(error)` value (which is `None` when the error body
carries no reason). -/
structure HttpErr where
  status : String
  reason : Option String
deriving DecidableEq

/-- Embedding of `HttpErrorPolicy` (src/drive/http.py lines 81-143).
`codes` is the normalized list form of the constructor's `codes` argument,
`reasons = none` models a policy that declares no reason codes. -/
structure HttpErrorPolicy where
  codes : List String
  reasons : Option (List String)
  print_always : Bool
  action : Nat
  warning : String
deriving DecidableEq

namespace HttpErrorPolicy

/-- `HttpErrorPolicy.RETRY` constant. -/
def RETRY : Nat := 0

/-- `HttpErrorPolicy.SKIP` constant. -/
def SKIP : Nat := 1

/-- `HttpErrorPolicy.FAIL` constant. -/
def FAIL : Nat := 2

/-- `matches_status`: membership of the error status in the policy codes. -/
def matches_status (p : HttpErrorPolicy) (e : HttpErr) : Bool :=
  p.codes.contains e.status

/-- `matches_reason`: `True` when the policy declares no reasons, otherwise
membership of the parsed reason in the declared reason set (a missing
reason, `none`, is never a member of a declared set). -/
def matches_reason (p : HttpErrorPolicy) (e : HttpErr) : Bool :=
  match p.reasons with
  | none => true
  | some rs =>
    match e.reason with
    | none => false
    | some r => rs.contains r

/-- Embeds `HttpErrorPolicy.matches` (named `matchesE` because `matches` is a
Lean keyword): status match and reason match. -/
def matchesE (p : HttpErrorPolicy) (e : HttpErr) : Bool :=
  p.matches_status e && p.matches_reason e

end HttpErrorPolicy

/-- Embedding of `HttpErrorTable` (src/drive/http.py lines 146-157). -/
structure HttpErrorTable where
  policies : List HttpErrorPolicy
deriving DecidableEq

namespace HttpErrorTable

/-- `HttpErrorTable.matching`: filter the table by `matches` and return the
head of the filtered list (or `none`) together with the error status. -/
def matching (t : HttpErrorTable) (e : HttpErr) : Option HttpErrorPolicy × String :=
  (match t.policies.filter (fun p => p.matchesE e) with
   | [] => none
   | p :: _ => some p,
   e.status)

end HttpErrorTable

/-- The `DEFAULT_POLICIES` table (src/drive/http.py lines 160-179). -/
def DEFAULT_POLICIES : HttpErrorTable :=
  ⟨[ { codes := ["104"],
       reasons := none,
       print_always := true,
       action := HttpErrorPolicy.RETRY,
       warning := "Connection reset by peer while processing {rid}." },
     { codes := ["404"],
       reasons := none,
       print_always := true,
       action := HttpErrorPolicy.SKIP,
       warning := "Request {rid} resulted in a 404 (not found) and has been skipped. Is your snapshot stale?" },
     { codes := ["403", "429"],
       reasons := some ["rateLimitExceeded", "userRateLimitExceeded"],
       print_always := false,
       action := HttpErrorPolicy.RETRY,
       warning := "Request {rid} resulted in a 4XX. Slowing down." },
     { codes := ["500"],
       reasons := none,
       print_always := false,
       action := HttpErrorPolicy.RETRY,
       warning := "The API returned a server error (500) for {rid}. Retrying." } ]⟩

/-- Errors raised by `ErrorHandlingRunner.execute`: `unhandled e` models
`raise result.error` (both the no-matching-policy case and the FAIL
action), `unknownAction` the defensive arm for unknown actions,
`terminal b` the final `raise Exception(...)` where `b` is the value of
`attempts > self.max_retries` selecting between the
"Too many retry attempts." and "Operation timed out." messages, and
`fuelOut` is the out-of-fuel marker of the embedding (never reached in the
scenarios proved below). -/
inductive ExecErr where
  | unhandled (e : HttpErr)
  | unknownAction (a : Nat)
  | terminal (tooManyRetries : Bool)
  | fuelOut
deriving DecidableEq

/-- Mutable state of one `ErrorHandlingRunner.execute` call: the pending
request ids (dict keys, insertion ordered), the warned status codes (a
set, modeled as a list with member-checked insertion), the `attempts` and
`backoff` counters, and the ids yielded to the caller so far. -/
structure RState where
  pending : List String
  warnings : List String
  attempts : Nat
  backoff : Nat
  yielded : List String
deriving DecidableEq

/-- The warning step of the result-processing loop (src/drive/http.py
lines 226-228): print the policy warning when `print_always` is set or the
error code has not been warned about yet, recording the code in the warned
set when printing happens. -/
def warnUpdate (policy : HttpErrorPolicy) (error_code : String) (st : RState) : RState :=
  if policy.print_always || ! st.warnings.contains error_code then
    { st with warnings := st.warnings.insert error_code }
  else st

/-- One arm of the result-processing `for` loop in
`ErrorHandlingRunner.execute` (src/drive/http.py lines 208-245), for a
single `RequestResult` with id `id` and error `err`. -/
def processResult (table : HttpErrorTable) (min_backoff : Nat) (st : RState)
    (id : String) (err : Option HttpErr) : Except ExecErr RState :=
  match err with
  | none =>
    -- No errors with the current request: drop it from pending, yield it,
    -- and reset the retry and backoff counters.
    .ok { st with
          pending := st.pending.erase id,
          yielded := st.yielded ++ [id],
          attempts := 1,
          backoff := min_backoff }
  | some e =>
    match (table.matching e).1 with
    | none => .error (.unhandled e)
    | some policy =>
      let st1 := warnUpdate policy (table.matching e).2 st
      if policy.action = HttpErrorPolicy.SKIP then
        .ok { st1 with pending := st1.pending.erase id }
      else if policy.action = HttpErrorPolicy.RETRY then
        .ok st1
      else if policy.action = HttpErrorPolicy.FAIL then
        .error (.unhandled e)
      else
        .error (.unknownAction policy.action)

/-- Fold a list of request outcomes through `processResult`, left to right,
stopping at the first raise (the Python `for` loop with exception
propagation). -/
def processFold (table : HttpErrorTable) (min_backoff : Nat)
    (errOf : String → Option HttpErr) : List String → RState → Except ExecErr RState
  | [], st => .ok st
  | id :: l, st =>
    match processResult table min_backoff st id (errOf id) with
    | .error e => .error e
    | .ok s => processFold table min_backoff errOf l s

/-- One pass of `execute`: run the delegate over a snapshot of the pending
requests (the sequential delegate yields outcomes in submission order) and
fold every outcome through `processResult`. `errOf id` is the remote
outcome of request `id` in this pass (`none` = success). -/
def runPass (table : HttpErrorTable) (min_backoff : Nat)
    (errOf : String → Option HttpErr) (st : RState) : Except ExecErr RState :=
  processFold table min_backoff errOf st.pending st

/-- The inter-pass update of `execute` (src/drive/http.py lines 255-257):
sleep, double the backoff and increment the attempt counter. -/
def backoffStep (st : RState) : RState :=
  { st with backoff := st.backoff * 2, attempts := st.attempts + 1 }

/-- Configuration of an `ErrorHandlingRunner`; `timeout = none` models the
default `float('Inf')`. -/
structure RunCfg where
  min_backoff : Nat
  max_retries : Nat
  timeout : Option Nat
deriving DecidableEq

/-- The time half of the `while` guard: `(time.monotonic() - start) < self.timeout`. -/
def timeOk : Option Nat → Nat → Bool
  | none, _ => true
  | some t, e => e < t

/-- The `while` loop of `ErrorHandlingRunner.execute` (src/drive/http.py
lines 207-263). `oracle k id` is the outcome of request `id` in pass `k`,
`elapsed k` the elapsed monotonic time when the guard is evaluated before
pass `k`. Returns the yielded ids (on normal return) or the raised error,
paired with the number of passes that were run. Fuel only bounds the
recursion depth of the embedding. -/
def loop (cfg : RunCfg) (table : HttpErrorTable)
    (oracle : Nat → String → Option HttpErr) (elapsed : Nat → Nat) :
    Nat → Nat → RState → Except ExecErr (List String) × Nat
  | 0, _, _ => (.error .fuelOut, 0)
  | fuel + 1, k, st =>
    if timeOk cfg.timeout (elapsed k) = true ∧ st.attempts ≤ cfg.max_retries then
      match runPass table cfg.min_backoff (oracle k) st with
      | .error e => (.error e, 1)
      | .ok st' =>
        if st'.pending.isEmpty then
          (.ok st'.yielded, 1)
        else
          let r := loop cfg table oracle elapsed fuel (k + 1) (backoffStep st')
          (r.1, r.2 + 1)
    else
      (.error (.terminal (decide (st.attempts > cfg.max_retries))), 0)

/-- `ErrorHandlingRunner.execute` over the request ids `ids` (dict keys of
`pending`, assumed unique as Python dict keys are). -/
def execute (cfg : RunCfg) (table : HttpErrorTable)
    (oracle : Nat → String → Option HttpErr) (elapsed : Nat → Nat)
    (ids : List String) : Except ExecErr (List String) × Nat :=
  loop cfg table oracle elapsed ((ids.length + 1) * (cfg.max_retries + 1) + 1) 0
    { pending := ids, warnings := [], attempts := 1,
      backoff := cfg.min_backoff, yielded := [] }

/-- Resource kind discriminator: the closed variant over the three concrete
resource classes `Resource` / `DriveFolder` / `DriveFile` of
src/drive/api.py, replacing Python `isinstance` dispatch. -/
inductive RKind where
  | generic
  | folder
  | file
deriving DecidableEq

/-- Embedding of a resolved resource (src/drive/api.py). `parents` is the
parent-id sequence; `md5Checksum` is present on content-bearing files
(`DriveFile`); `name` is meaningful for folders and files. -/
structure Resource where
  id : String
  name : String
  mimeType : String
  parents : List String
  md5Checksum : Option String
  kind : RKind
deriving DecidableEq

/-- Embedding of `ResourcePath` (src/drive/api.py lines 245-257): a leaf
resource plus its ancestor chain in leaf-to-root order, as produced by
`_resource_path`. -/
structure ResourcePath where
  resource : Resource
  path : List Resource
deriving DecidableEq

namespace ResourcePath

/-- `ResourcePath.__str__`: a slash, then the reversal of
`[resource.name] + [element.name for element in path]` joined by slashes. -/
def toStr (rp : ResourcePath) : String :=
  "/" ++ String.intercalate "/" (([rp.resource.name] ++ rp.path.map (fun r => r.name)).reverse)

/-- `ResourcePath.startswith`: prefix test of `p` against the rendering,
at the character level (the meaning of Python `str.startswith`). -/
def startswith (rp : ResourcePath) (p : String) : Bool :=
  p.toList.isPrefixOf rp.toStr.toList

end ResourcePath

/-- Errors of the `unique` helper (src/drive/api.py lines 274-280):
`notFound` and `ambiguous` are the two explicit raises; `indexOut` models
the `IndexError` coming from `resources[0]` on an empty list in the final
branch. -/
inductive UniqueErr where
  | notFound
  | ambiguous
  | indexOut
deriving DecidableEq

/-- Embedding of `unique` (src/drive/api.py lines 274-280), with the
`alias` argument dropped because it only feeds the exception message. -/
def unique {α : Type} (resources : List α)
    (allow_none : Bool := false) (allow_multiple : Bool := false) : Except UniqueErr α :=
  if resources.length = 0 ∧ allow_none = false then
    .error .notFound
  else if resources.length > 1 ∧ allow_multiple = false then
    .error .ambiguous
  else
    match resources with
    | [] => .error .indexOut
    | x :: _ => .ok x

/-- Errors of path resolution: `multiParent` is the structural raise for a
resource with more than one parent, `missingParent` models the dict
`KeyError` on an unresolved parent id, `fuelOut` the embedding's recursion
bound (never reached on the acyclic tables used below). -/
inductive PathErr where
  | multiParent
  | missingParent
  | fuelOut
deriving DecidableEq

/-- Lookup in the resolved-ancestor table (a Python dict `id -> resource`;
the association list is kept newest-binding-first so the first hit is the
most recent `update`). -/
def lookupRes (table : List (String × Resource)) (id : String) : Option Resource :=
  (table.find? (fun kv => kv.1 = id)).map (fun kv => kv.2)

/-- Dict `update` with a batch of resources keyed by id: newer bindings are
prepended so they shadow older ones under `lookupRes`. -/
def updateTable (table : List (String × Resource)) (rs : List Resource) :
    List (String × Resource) :=
  rs.foldl (fun acc r => (r.id, r) :: acc) table

/-- Embedding of `_resource_path` (src/drive/api.py lines 307-319): no
parents gives the empty path; more than one parent is a structural error;
otherwise the single parent is looked up and prepended to its own path. -/
def resource_path : Nat → List (String × Resource) → Resource → Except PathErr (List Resource)
  | 0, _, _ => .error .fuelOut
  | fuel + 1, table, r =>
    match r.parents with
    | [] => .ok []
    | [p] =>
      match lookupRes table p with
      | none => .error .missingParent
      | some parent => do
        let rest ← resource_path fuel table parent
        .ok (parent :: rest)
    | _ => .error .multiParent

/-- The fetch-and-cache loop of `resolve_paths` (src/drive/api.py lines
288-300): gather all parent ids of resolved entries, keep the unresolved
ones, stop when none remain, otherwise bulk-fetch them (`fetch` models
`get_resources`) and merge into the table. -/
def resolveLoop (fetch : List String → List Resource) :
    Nat → List (String × Resource) → Except PathErr (List (String × Resource))
  | 0, _ => .error .fuelOut
  | fuel + 1, resolved =>
    let parents := ((resolved.map (fun kv => kv.2)).flatMap (fun r => r.parents)).dedup
    let unresolved := parents.filter (fun p => (lookupRes resolved p).isNone)
    if unresolved.isEmpty then
      .ok resolved
    else
      resolveLoop fetch fuel (updateTable resolved (fetch unresolved))

/-- Embedding of `resolve_paths` (src/drive/api.py lines 283-304): seed the
table with the leaves, run the fetch loop, then pair every leaf with its
`ResourcePath`. -/
def resolve_paths (fuel : Nat) (fetch : List String → List Resource)
    (leaves : List Resource) : Except PathErr (List (Resource × ResourcePath)) := do
  let resolved ← resolveLoop fetch fuel (updateTable [] leaves)
  leaves.mapM (fun leaf => do
    let p ← resource_path fuel resolved leaf
    pure (leaf, ⟨leaf, p⟩))

/-- Embedding of `Snapshot` (src/drive/api.py lines 233-242). -/
structure Snapshot where
  entries : List Resource
deriving DecidableEq

/-- `Snapshot.merge`: plain concatenation of entries. -/
def Snapshot.merge (a b : Snapshot) : Snapshot :=
  ⟨a.entries ++ b.entries⟩

/-- Error raised by `rank` (src/commands/dedup.py line 77) when a path
matches none of the preference prefixes. -/
inductive RankErr where
  | unmatched
deriving DecidableEq

/-- The inner `for i, prefix in enumerate(prefix_preferences)` loop of
`rank`: index of the first preference the path starts with, counting from
`i`. -/
def firstPrefixIdx (path : ResourcePath) : Nat → List String → Option Nat
  | _, [] => none
  | i, p :: ps => if path.startswith p then some i else firstPrefixIdx path (i + 1) ps

/-- Embedding of `rank` (src/commands/dedup.py lines 67-77), as consumed by
`list(...)` in `dedup_apply`: one rank per path in order, aborting with an
error as soon as some path matches no preference. -/
def rank (prefs : List String) : List ResourcePath → Except RankErr (List Nat)
  | [] => .ok []
  | path :: tl =>
    match firstPrefixIdx path 0 prefs with
    | none => .error .unmatched
    | some i =>
      match rank prefs tl with
      | .error e => .error e
      | .ok rs => .ok (i :: rs)

/-- The sort key of `dedup_apply`: compare zipped (entry, rank) pairs by
rank; Python `sorted` is stable, as is `List.mergeSort`. -/
def leRank (x y : Resource × Nat) : Bool :=
  x.2 ≤ y.2

/-- The stable sort `sorted(preferences, key=lambda x: x[1])` of
`dedup_apply` (src/commands/dedup.py line 54) over one duplicate group. -/
def dedup_selection (entries : List Resource) (ranks : List Nat) : List (Resource × Nat) :=
  (entries.zip ranks).mergeSort leRank

/-- The member kept by `dedup_apply`: the head of the stable sort. -/
def dedup_kept (entries : List Resource) (ranks : List Nat) : Option (Resource × Nat) :=
  (dedup_selection entries ranks).head?

/-- The members queued for deletion by `dedup_apply`: everything after the
head of the stable sort (`sorted(...)[1:]`). -/
def dedup_deletions (entries : List Resource) (ranks : List Nat) : List Resource :=
  (dedup_selection entries ranks).tail.map (fun x => x.1)

/-- First minimum of a list under `le`, ties resolved toward the earlier
element: the reference characterization of the head of a stable sort. -/
def firstMinBy {α : Type} (le : α → α → Bool) : List α → Option α
  | [] => none
  | a :: l =>
    match firstMinBy le l with
    | none => some a
    | some m => some (if le a m then a else m)

/-- Embedding of `LocalFile` (src/commands/sync/state.py lines 14-18). -/
structure LocalFile where
  path : String
  mime_type : String
  md5_checksum : String
deriving DecidableEq

/-- The key set of `_by_md5` (src/commands/sync/sync.py lines 116-120): the
local MD5 hashes, one key per distinct hash. -/
def localHashes (files : List LocalFile) : List String :=
  (files.map (fun f => f.md5_checksum)).dedup

/-- The `local[key]` group of `_by_md5`: all local files with the given
hash, in enumeration order. -/
def localGroup (files : List LocalFile) (h : String) : List LocalFile :=
  files.filter (fun f => f.md5_checksum = h)

/-- The remote hash set of `_sync` (src/commands/sync/sync.py lines 79-83):
`md5Checksum` of every `DriveFile` entry of the exclusion snapshot. -/
def remoteHashes (ss : Snapshot) : List (Option String) :=
  (ss.entries.filter (fun e => e.kind = RKind.file)).map (fun e => e.md5Checksum)

/-- The upload key set `to_sync = local.keys() - remote` of `_sync`
(src/commands/sync/sync.py line 86), as a list of hashes. -/
def to_sync (files : List LocalFile) (remote : List (Option String)) : List String :=
  (localHashes files).filter (fun h => ¬ (some h ∈ remote))

/-- The queued uploads of `_sync` (src/commands/sync/sync.py lines 98-100):
for each missing hash, the first local file of its group
(`local[key][0]`). -/
def uploads (files : List LocalFile) (remote : List (Option String)) : List LocalFile :=
  (to_sync files remote).filterMap (fun h => (localGroup files h).head?)

/-- The remote `DriveFile` entry created by uploading a local file: it
carries the same content hash (the id and name the service would assign
are irrelevant to hashing and stubbed with the local path). -/
def uploadedEntry (f : LocalFile) : Resource :=
  { id := f.path, name := f.path, mimeType := f.mime_type,
    parents := [], md5Checksum := some f.md5_checksum, kind := RKind.file }

/-- Checkpoint-relevant events of one `_sync` run, in program order. -/
inductive SyncEv where
  | store
  | upload
  | clear
deriving DecidableEq

/-- The checkpoint choreography of `_sync` (src/commands/sync/sync.py lines
102-113): persist the state unless already stored; in dry-run mode return
right away; otherwise run the uploads and, only if they all succeed
(`runner.execute` did not raise), remove the checkpoint. -/
def syncEvents (stored dry_run uploads_ok : Bool) : List SyncEv :=
  (if stored = false then [SyncEv.store] else []) ++
  (if dry_run then []
   else if uploads_ok then [SyncEv.upload, SyncEv.clear]
   else [SyncEv.upload])

/-- Embedding of `SyncState` for the `store` protocol
(src/commands/sync/state.py): only the fields `store` touches. -/
structure SyncStateM where
  full_path : String
  stored : Bool
deriving DecidableEq

/-- Embedding of `SyncState.store` (src/commands/sync/state.py lines
40-50): set `stored = True`, attempt the serialization and write
(`write_ok` says whether it raises), and on failure roll `stored` back to
`False` and re-raise. Returns the state after the call together with the
call outcome. -/
def SyncStateM.store (st : SyncStateM) (write_ok : Bool) : SyncStateM × Except Unit Unit :=
  let st1 := { st with stored := true }
  if write_ok then (st1, .ok ()) else ({ st1 with stored := false }, .error ())

deriving instance DecidableEq for Except

/-- The matching predicate as the specification words it (spec section
4.1): the status-code set contains the status and, when the policy
declares reason codes, the declared reason set contains the (present)
reason; a policy with no declared reasons matches any reason for its
statuses. Stated from the spec, to be compared with the code-level
`matchesE`. -/
def matchesSpec (p : HttpErrorPolicy) (e : HttpErr) : Prop :=
  e.status ∈ p.codes ∧
  (∀ rs, p.reasons = some rs → ∃ r, e.reason = some r ∧ r ∈ rs)

/-- Synthetic hierarchy for path-resolution checks: top-level folder `A`
(child of the unmaterialized drive root, hence no recorded parents). -/
def resA : Resource :=
  ⟨"idA", "A", "application/vnd.google-apps.folder", [], none, RKind.folder⟩

/-- Synthetic hierarchy: folder `B` inside `A`. -/
def resB : Resource :=
  ⟨"idB", "B", "application/vnd.google-apps.folder", ["idA"], none, RKind.folder⟩

/-- Synthetic hierarchy: the leaf file inside `B`. -/
def resLeaf : Resource :=
  ⟨"idL", "leaf", "image/jpeg", ["idB"], some "h-leaf", RKind.file⟩

/-- A structurally invalid resource with two parents. -/
def resMulti : Resource :=
  ⟨"idM", "M", "image/jpeg", ["idA", "idB"], none, RKind.file⟩

/-- The remote bulk-fetch (`get_resources`) of the synthetic hierarchy:
serves `A` and `B` by id. -/
def synthFetch (ids : List String) : List Resource :=
  ids.filterMap (fun i =>
    if i = "idA" then some resA else if i = "idB" then some resB else none)

/-- Dedup fixture: the Pictures folder. -/
def folderPics : Resource :=
  ⟨"fp", "Pictures", "application/vnd.google-apps.folder", [], none, RKind.folder⟩

/-- Dedup fixture: the Pictures/New folder. -/
def folderNew : Resource :=
  ⟨"fn", "New", "application/vnd.google-apps.folder", ["fp"], none, RKind.folder⟩

/-- Dedup fixture: the Pictures/Old folder. -/
def folderOld : Resource :=
  ⟨"fo", "Old", "application/vnd.google-apps.folder", ["fp"], none, RKind.folder⟩

/-- Dedup fixture: the Other folder. -/
def folderOther : Resource :=
  ⟨"fx", "Other", "application/vnd.google-apps.folder", [], none, RKind.folder⟩

/-- Dedup fixture: the duplicate copy under /Pictures/New/. -/
def rNew : Resource := ⟨"rn", "x.jpg", "image/jpeg", ["fn"], some "h-dup", RKind.file⟩

/-- Dedup fixture: the duplicate copy under /Pictures/Old/. -/
def rOld : Resource := ⟨"ro", "x.jpg", "image/jpeg", ["fo"], some "h-dup", RKind.file⟩

/-- Dedup fixture: a duplicate copy under /Other/. -/
def rOther : Resource := ⟨"rx", "x.jpg", "image/jpeg", ["fx"], some "h-dup", RKind.file⟩

/-- Dedup fixture: the resolved path /Pictures/New/x.jpg. -/
def pNew : ResourcePath := ⟨rNew, [folderNew, folderPics]⟩

/-- Dedup fixture: the resolved path /Pictures/Old/x.jpg. -/
def pOld : ResourcePath := ⟨rOld, [folderOld, folderPics]⟩

/-- Dedup fixture: the resolved path /Other/x.jpg. -/
def pOther : ResourcePath := ⟨rOther, [folderOther]⟩

/-! ### Basic facts about the runner's per-result processing -/

theorem warnUpdate_pending (p : HttpErrorPolicy) (c : String) (st : RState) :
    (warnUpdate p c st).pending = st.pending := by
  unfold warnUpdate; split <;> rfl

theorem warnUpdate_attempts (p : HttpErrorPolicy) (c : String) (st : RState) :
    (warnUpdate p c st).attempts = st.attempts := by
  unfold warnUpdate; split <;> rfl

theorem warnUpdate_backoff (p : HttpErrorPolicy) (c : String) (st : RState) :
    (warnUpdate p c st).backoff = st.backoff := by
  unfold warnUpdate; split <;> rfl

theorem warnUpdate_yielded (p : HttpErrorPolicy) (c : String) (st : RState) :
    (warnUpdate p c st).yielded = st.yielded := by
  unfold warnUpdate; split <;> rfl

theorem warnUpdate_eq_set (p : HttpErrorPolicy) (c : String) (st : RState) :
    warnUpdate p c st = { st with warnings := (warnUpdate p c st).warnings } := by
  unfold warnUpdate; split <;> rfl

theorem processResult_success (table : HttpErrorTable) (minB : Nat)
    (st : RState) (id : String) :
    processResult table minB st id none =
      .ok { st with
            pending := st.pending.erase id,
            yielded := st.yielded ++ [id],
            attempts := 1,
            backoff := minB } := rfl

theorem processResult_unmatched (table : HttpErrorTable) (minB : Nat)
    (st : RState) (id : String) (e : HttpErr)
    (hm : (table.matching e).1 = none) :
    processResult table minB st id (some e) = .error (.unhandled e) := by
  simp [processResult, hm]

theorem processResult_retry (table : HttpErrorTable) (minB : Nat)
    (st : RState) (id : String) (e : HttpErr) (p : HttpErrorPolicy)
    (hm : (table.matching e).1 = some p) (ha : p.action = HttpErrorPolicy.RETRY) :
    processResult table minB st id (some e) =
      .ok (warnUpdate p (table.matching e).2 st) := by
  simp [processResult, hm, ha, HttpErrorPolicy.RETRY, HttpErrorPolicy.SKIP]

theorem processResult_skip (table : HttpErrorTable) (minB : Nat)
    (st : RState) (id : String) (e : HttpErr) (p : HttpErrorPolicy)
    (hm : (table.matching e).1 = some p) (ha : p.action = HttpErrorPolicy.SKIP) :
    processResult table minB st id (some e) =
      .ok { warnUpdate p (table.matching e).2 st with pending := st.pending.erase id } := by
  simp [processResult, hm, ha, HttpErrorPolicy.SKIP, warnUpdate_pending]

theorem processResult_error_ok (table : HttpErrorTable) (minB : Nat)
    (st : RState) (id : String) (e : HttpErr) (st' : RState)
    (h : processResult table minB st id (some e) = .ok st') :
    st'.attempts = st.attempts ∧ st'.backoff = st.backoff ∧ st'.yielded = st.yielded := by
  simp only [processResult] at h
  cases hm : (table.matching e).1 with
  | none => rw [hm] at h; simp at h
  | some policy =>
    rw [hm] at h
    simp only at h
    split at h
    · cases h with
      | refl =>
        simp [warnUpdate_attempts, warnUpdate_backoff, warnUpdate_yielded]
    · split at h
      · cases h with
        | refl =>
          simp [warnUpdate_attempts, warnUpdate_backoff, warnUpdate_yielded]
      · split at h
        · simp at h
        · simp at h

theorem processFold_no_success (table : HttpErrorTable) (minB : Nat)
    (errOf : String → Option HttpErr) :
    ∀ (l : List String) (st st' : RState), (∀ id ∈ l, errOf id ≠ none) →
      processFold table minB errOf l st = .ok st' →
      st'.attempts = st.attempts ∧ st'.backoff = st.backoff ∧ st'.yielded = st.yielded := by
  intro l
  induction l with
  | nil =>
    intro st st' _ hf
    cases hf
    exact ⟨rfl, rfl, rfl⟩
  | cons id l ih =>
    intro st st' h hf
    simp only [processFold] at hf
    cases hr : processResult table minB st id (errOf id) with
    | error e => rw [hr] at hf; cases hf
    | ok s =>
      rw [hr] at hf
      obtain ⟨e, he⟩ := Option.ne_none_iff_exists'.mp (h id (List.mem_cons_self id l))
      rw [he] at hr
      obtain ⟨h1, h2, h3⟩ := processResult_error_ok table minB st id e s hr
      obtain ⟨g1, g2, g3⟩ := ih s st' (fun i hi => h i (List.mem_cons_of_mem id hi)) hf
      exact ⟨g1.trans h1, g2.trans h2, g3.trans h3⟩

theorem processFold_keeps_reset (table : HttpErrorTable) (minB : Nat)
    (errOf : String → Option HttpErr) :
    ∀ (l : List String) (st st' : RState),
      st.backoff = minB → st.attempts = 1 →
      processFold table minB errOf l st = .ok st' →
      st'.backoff = minB ∧ st'.attempts = 1 := by
  intro l
  induction l with
  | nil =>
    intro st st' hb ha hf
    cases hf
    exact ⟨hb, ha⟩
  | cons id l ih =>
    intro st st' hb ha hf
    simp only [processFold] at hf
    cases hr : processResult table minB st id (errOf id) with
    | error e => rw [hr] at hf; cases hf
    | ok s =>
      rw [hr] at hf
      cases he : errOf id with
      | none =>
        rw [he, processResult_success] at hr
        cases hr
        exact ih _ st' rfl rfl hf
      | some e =>
        rw [he] at hr
        obtain ⟨h1, h2, _⟩ := processResult_error_ok table minB st id e s hr
        exact ih s st' (h2.trans hb) (h1.trans ha) hf

theorem processFold_success_reset (table : HttpErrorTable) (minB : Nat)
    (errOf : String → Option HttpErr) :
    ∀ (l : List String) (st st' : RState),
      (∃ id ∈ l, errOf id = none) →
      processFold table minB errOf l st = .ok st' →
      st'.backoff = minB ∧ st'.attempts = 1 := by
  intro l
  induction l with
  | nil =>
    intro st st' h _
    obtain ⟨id, hid, _⟩ := h
    cases hid
  | cons id l ih =>
    intro st st' h hf
    simp only [processFold] at hf
    cases hr : processResult table minB st id (errOf id) with
    | error e => rw [hr] at hf; cases hf
    | ok s =>
      rw [hr] at hf
      cases he : errOf id with
      | none =>
        rw [he, processResult_success] at hr
        cases hr
        exact processFold_keeps_reset table minB errOf l _ st' rfl rfl hf
      | some e =>
        obtain ⟨i, hi, hnone⟩ := h
        rcases List.mem_cons.mp hi with hh | ht
        · rw [hh] at hnone; rw [hnone] at he; cases he
        · exact ih s st' ⟨i, ht, hnone⟩ hf

theorem processFold_all_retry (table : HttpErrorTable) (minB : Nat)
    (errOf : String → Option HttpErr) :
    ∀ (l : List String) (st : RState),
      (∀ id ∈ l, ∃ e, errOf id = some e ∧
        ∃ p, (table.matching e).1 = some p ∧ p.action = HttpErrorPolicy.RETRY) →
      ∃ w, processFold table minB errOf l st = .ok { st with warnings := w } := by
  intro l
  induction l with
  | nil =>
    intro st _
    exact ⟨st.warnings, rfl⟩
  | cons id l ih =>
    intro st h
    obtain ⟨e, he, p, hm, ha⟩ := h id (List.mem_cons_self id l)
    have hr := processResult_retry table minB st id e p hm ha
    obtain ⟨w, hw⟩ := ih (warnUpdate p (table.matching e).2 st)
      (fun i hi => h i (List.mem_cons_of_mem id hi))
    refine ⟨w, ?_⟩
    simp only [processFold, he, hr]
    rw [hw, warnUpdate_eq_set]

theorem loop_always_retry (cfg : RunCfg) (table : HttpErrorTable)
    (oracle : Nat → String → Option HttpErr) (elapsed : Nat → Nat) (ids : List String)
    (htime : cfg.timeout = none)
    (hne : ids ≠ [])
    (herr : ∀ k id, id ∈ ids → ∃ e, oracle k id = some e ∧
      ∃ p, (table.matching e).1 = some p ∧ p.action = HttpErrorPolicy.RETRY) :
    ∀ (fuel k : Nat) (st : RState), st.pending = ids →
      st.attempts ≤ cfg.max_retries + 1 →
      cfg.max_retries + 2 - st.attempts ≤ fuel →
      loop cfg table oracle elapsed fuel k st =
        (.error (.terminal true), cfg.max_retries + 1 - st.attempts) := by
  intro fuel
  induction fuel with
  | zero =>
    intro k st _ ha hf
    omega
  | succ fuel ih =>
    intro k st hp ha hf
    by_cases hle : st.attempts ≤ cfg.max_retries
    · have hg : timeOk cfg.timeout (elapsed k) = true ∧ st.attempts ≤ cfg.max_retries :=
        ⟨by rw [htime]; rfl, hle⟩
      obtain ⟨w, hw⟩ := processFold_all_retry table cfg.min_backoff (oracle k) ids st
        (fun id hid => herr k id hid)
      have hrp : runPass table cfg.min_backoff (oracle k) st = .ok { st with warnings := w } := by
        unfold runPass
        rw [← hp] at hw
        exact hw
      have hpe : ({ st with warnings := w } : RState).pending.isEmpty = false := by
        simp only [List.isEmpty_eq_false]
        rw [hp]
        exact hne
      have hnext := ih (k + 1) (backoffStep { st with warnings := w })
        (by simp [backoffStep, hp])
        (by simp [backoffStep]; omega)
        (by simp [backoffStep]; omega)
      simp only [loop, hg, and_self, if_true, hrp, hpe, Bool.false_eq_true, if_false, hnext]
      simp only [backoffStep, Prod.mk.injEq]
      exact ⟨trivial, by omega⟩
    · have hgate : ¬ (timeOk cfg.timeout (elapsed k) = true ∧ st.attempts ≤ cfg.max_retries) :=
        fun hc => hle hc.2
      have hflag : decide (st.attempts > cfg.max_retries) = true := by
        simp only [decide_eq_true_eq]
        omega
      simp only [loop, if_neg hgate, hflag, Prod.mk.injEq]
      exact ⟨trivial, by omega⟩

/-- C1: for every run of `ErrorHandlingRunner.execute` with a policy table
that always answers Retry for the produced errors and operations that
always error, `execute` raises exactly after `max_retries` attempts (the
pass count of the result is exactly `max_retries`, never fewer, never
more) with the "too many retry attempts" terminal error; and when instead
the timeout bound is hit with the attempt budget unexhausted, the terminal
error is the "timed out" one. -/
theorem spec_C1_exhaustion_boundary (cfg : RunCfg) (table : HttpErrorTable)
    (oracle : Nat → String → Option HttpErr) (elapsed : Nat → Nat) (ids : List String)
    (hne : ids ≠ [])
    (herr : ∀ k id, id ∈ ids → ∃ e, oracle k id = some e ∧
      ∃ p, (table.matching e).1 = some p ∧ p.action = HttpErrorPolicy.RETRY) :
    (cfg.timeout = none →
      execute cfg table oracle elapsed ids = (.error (.terminal true), cfg.max_retries)) ∧
    (∀ t, cfg.timeout = some t → t ≤ elapsed 0 → 1 ≤ cfg.max_retries →
      execute cfg table oracle elapsed ids = (.error (.terminal false), 0)) := by
  constructor
  · intro htime
    unfold execute
    have hfuel : cfg.max_retries + 2 -
        (⟨ids, [], 1, cfg.min_backoff, []⟩ : RState).attempts ≤
        (ids.length + 1) * (cfg.max_retries + 1) + 1 := by
      show cfg.max_retries + 2 - 1 ≤ _
      have h1 : cfg.max_retries + 1 ≤ (ids.length + 1) * (cfg.max_retries + 1) :=
        Nat.le_mul_of_pos_left (cfg.max_retries + 1) (by omega)
      omega
    have hres := loop_always_retry cfg table oracle elapsed ids htime hne herr
      ((ids.length + 1) * (cfg.max_retries + 1) + 1) 0
      ⟨ids, [], 1, cfg.min_backoff, []⟩ rfl (by show 1 ≤ _; omega) hfuel
    rw [hres]
    simp

  · intro t htime hel hmr
    unfold execute
    have hbad : timeOk cfg.timeout (elapsed 0) = false := by
      rw [htime]
      simp only [timeOk, decide_eq_false_iff_not]
      omega
    have hgate : ¬ (timeOk cfg.timeout (elapsed 0) = true ∧
        (⟨ids, [], 1, cfg.min_backoff, []⟩ : RState).attempts ≤ cfg.max_retries) := by
      intro hc
      rw [hbad] at hc
      cases hc.1
    simp only [loop, if_neg hgate]
    have hd : decide ((⟨ids, [], 1, cfg.min_backoff, []⟩ : RState).attempts >
        cfg.max_retries) = false := decide_eq_false (by show ¬ (1 > _); omega)
    rw [hd]

/-- Witness for C1 at a concrete input: one request "a" that fails with a
500 on every pass against the default policy table (whose 500 policy is
Retry) and `max_retries = 2`: the runner raises the too-many-attempts
error after exactly 2 passes; and with a timeout of 3 already elapsed it
raises the timed-out error after 0 passes. -/
theorem spec_C1_exhaustion_boundary_witness :
    execute ⟨5, 2, none⟩ DEFAULT_POLICIES (fun _ _ => some ⟨"500", none⟩)
      (fun _ => 0) ["a"] = (.error (.terminal true), 2) ∧
    execute ⟨5, 2, some 3⟩ DEFAULT_POLICIES (fun _ _ => some ⟨"500", none⟩)
      (fun _ => 3) ["a"] = (.error (.terminal false), 0) := by
  have herr : ∀ (k : Nat) (id : String), id ∈ ["a"] → ∃ e,
      (some (⟨"500", none⟩ : HttpErr) : Option HttpErr) = some e ∧
      ∃ p, (DEFAULT_POLICIES.matching e).1 = some p ∧
        p.action = HttpErrorPolicy.RETRY := by
    intro k id _
    refine ⟨⟨"500", none⟩, rfl,
      { codes := ["500"],
        reasons := none,
        print_always := false,
        action := HttpErrorPolicy.RETRY,
        warning := "The API returned a server error (500) for {rid}. Retrying." },
      by decide, rfl⟩
  constructor
  · exact (spec_C1_exhaustion_boundary ⟨5, 2, none⟩ DEFAULT_POLICIES
      (fun _ _ => some ⟨"500", none⟩) (fun _ => 0) ["a"] (by decide) herr).1 rfl
  · exact (spec_C1_exhaustion_boundary ⟨5, 2, some 3⟩ DEFAULT_POLICIES
      (fun _ _ => some ⟨"500", none⟩) (fun _ => 3) ["a"] (by decide) herr).2 3 rfl
      (by decide) (by decide)

/-- C2: in every execution of `ErrorHandlingRunner.execute`, after a pass
that completes with no successful outcome the `attempts` and `backoff`
counters are unchanged, so the inter-pass step taken when `pending` is
still nonempty leaves the next backoff at exactly twice the previous one;
after a pass that yields at least one successful outcome the counters
stand reset at `attempts = 1`, `backoff = min_backoff`; and the loop
continues a nonempty pass precisely through `backoffStep`. -/
theorem spec_C2_backoff_monotonicity (cfg : RunCfg) (table : HttpErrorTable)
    (oracle : Nat → String → Option HttpErr) (k : Nat) (st st' : RState)
    (h : runPass table cfg.min_backoff (oracle k) st = .ok st') :
    ((∀ id ∈ st.pending, oracle k id ≠ none) → st'.pending ≠ [] →
      st'.backoff = st.backoff ∧ st'.attempts = st.attempts ∧
      (backoffStep st').backoff = 2 * st.backoff) ∧
    ((∃ id ∈ st.pending, oracle k id = none) →
      st'.backoff = cfg.min_backoff ∧ st'.attempts = 1) ∧
    (∀ elapsed fuel,
      timeOk cfg.timeout (elapsed k) = true → st.attempts ≤ cfg.max_retries →
      st'.pending ≠ [] →
      loop cfg table oracle elapsed (fuel + 1) k st =
        ((loop cfg table oracle elapsed fuel (k + 1) (backoffStep st')).1,
         (loop cfg table oracle elapsed fuel (k + 1) (backoffStep st')).2 + 1)) := by
  refine ⟨?_, ?_, ?_⟩
  · intro hno _
    obtain ⟨h1, h2, _⟩ := processFold_no_success table cfg.min_backoff (oracle k)
      st.pending st st' hno h
    exact ⟨h2, h1, by simp [backoffStep, h2]; omega⟩
  · intro hyes
    exact processFold_success_reset table cfg.min_backoff (oracle k) st.pending st st' hyes h
  · intro elapsed fuel htime hatt hpend
    have hg : timeOk cfg.timeout (elapsed k) = true ∧ st.attempts ≤ cfg.max_retries :=
      ⟨htime, hatt⟩
    have hpe : st'.pending.isEmpty = false := by
      simp only [List.isEmpty_eq_false]
      exact hpend
    simp only [loop, hg, and_self, if_true, h, hpe, Bool.false_eq_true, if_false]

/-- Witness for C2 at a concrete input: a pass over the single pending
request "a" failing with a retried 500 leaves the counters at their
incoming values 1 and 5, and the inter-pass step doubles the backoff to
10; a pass whose only request succeeds resets the counters. -/
theorem spec_C2_backoff_monotonicity_witness :
    ((⟨["a"], ["500"], 1, 5, []⟩ : RState).backoff = (⟨["a"], [], 1, 5, []⟩ : RState).backoff ∧
     (⟨["a"], ["500"], 1, 5, []⟩ : RState).attempts = (⟨["a"], [], 1, 5, []⟩ : RState).attempts ∧
     (backoffStep ⟨["a"], ["500"], 1, 5, []⟩).backoff =
       2 * (⟨["a"], [], 1, 5, []⟩ : RState).backoff) ∧
    ((⟨[], [], 1, 5, ["b"]⟩ : RState).backoff = 5 ∧
     (⟨[], [], 1, 5, ["b"]⟩ : RState).attempts = 1) := by
  constructor
  · exact (spec_C2_backoff_monotonicity ⟨5, 10, none⟩ DEFAULT_POLICIES
      (fun _ _ => some ⟨"500", none⟩) 0 ⟨["a"], [], 1, 5, []⟩ ⟨["a"], ["500"], 1, 5, []⟩
      (by decide)).1 (by decide) (by decide)
  · exact (spec_C2_backoff_monotonicity ⟨5, 10, none⟩ DEFAULT_POLICIES
      (fun _ _ => none) 0 ⟨["b"], [], 3, 40, []⟩ ⟨[], [], 1, 5, ["b"]⟩
      (by decide)).2.1 ⟨"b", by decide, rfl⟩

theorem head_filter_eq_find (p : HttpErrorPolicy → Bool) :
    ∀ (l : List HttpErrorPolicy),
      (match l.filter p with
       | [] => (none : Option HttpErrorPolicy)
       | q :: _ => some q) = l.find? p := by
  intro l
  induction l with
  | nil => rfl
  | cons a l ih =>
    by_cases hp : p a = true
    · simp [List.filter_cons, hp, List.find?_cons, ih]
    · simp only [Bool.not_eq_true] at hp
      simp [List.filter_cons, hp, List.find?_cons, ih]

/-- C3: for every error signature and every policy table, the policy
selected by `HttpErrorTable.matching` is the first policy in table order
that matches, where a policy matches exactly when its status-code set
contains the status and, if it declares reason codes, its reason set
contains the reason (a policy with no declared reasons matches any reason
for its statuses); the second component of `matching` is the status; and
when no policy matches, the error is raised as-is, aborting the whole
runner in the pass that encounters it. -/
theorem spec_C3_policy_selection (t : HttpErrorTable) (e : HttpErr) :
    (∀ p : HttpErrorPolicy, p.matchesE e = true ↔ matchesSpec p e) ∧
    (t.matching e).1 = t.policies.find? (fun p => p.matchesE e) ∧
    (t.matching e).2 = e.status ∧
    (∀ minB st id, (t.matching e).1 = none →
      processResult t minB st id (some e) = .error (.unhandled e)) ∧
    (∀ (cfg : RunCfg) (oracle : Nat → String → Option HttpErr) (elapsed : Nat → Nat)
       (id : String) (rest : List String),
      oracle 0 id = some e → (t.matching e).1 = none →
      timeOk cfg.timeout (elapsed 0) = true → 1 ≤ cfg.max_retries →
      execute cfg t oracle elapsed (id :: rest) = (.error (.unhandled e), 1)) := by
  refine ⟨?_, ?_, rfl, ?_, ?_⟩
  · intro p
    unfold HttpErrorPolicy.matchesE HttpErrorPolicy.matches_status HttpErrorPolicy.matches_reason
    unfold matchesSpec
    cases hr : p.reasons with
    | none => simp
    | some rs =>
      cases he : e.reason with
      | none => simp
      | some r => simp
  · exact head_filter_eq_find (fun p => p.matchesE e) t.policies
  · intro minB st id hm
    exact processResult_unmatched t minB st id e hm
  · intro cfg oracle elapsed id rest ho hm htime hmr
    unfold execute
    have hg : timeOk cfg.timeout (elapsed 0) = true ∧
        (⟨id :: rest, [], 1, cfg.min_backoff, []⟩ : RState).attempts ≤ cfg.max_retries :=
      ⟨htime, by show 1 ≤ _; omega⟩
    have hrp : runPass t cfg.min_backoff (oracle 0) ⟨id :: rest, [], 1, cfg.min_backoff, []⟩ =
        .error (.unhandled e) := by
      unfold runPass
      show processFold t cfg.min_backoff (oracle 0) (id :: rest) _ = _
      simp only [processFold, ho, processResult_unmatched t cfg.min_backoff _ id e hm]
    simp only [loop, hg, and_self, if_true, hrp]

/-- Witness for C3 at a concrete input: a 403 error whose reason is not in
the declared reason set of the default 403/429 policy matches no policy of
the default table, so the runner re-raises it and aborts on the first
pass. -/
theorem spec_C3_policy_selection_witness :
    execute ⟨5, 10, none⟩ DEFAULT_POLICIES
      (fun _ _ => some ⟨"403", some "dailyLimitExceeded"⟩) (fun _ => 0) ["a", "b"] =
      (.error (.unhandled ⟨"403", some "dailyLimitExceeded"⟩), 1) :=
  (spec_C3_policy_selection DEFAULT_POLICIES ⟨"403", some "dailyLimitExceeded"⟩).2.2.2.2
    ⟨5, 10, none⟩ (fun _ _ => some ⟨"403", some "dailyLimitExceeded"⟩) (fun _ => 0)
    "a" ["b"] rfl (by decide) (by decide) (by decide)

theorem processFold_skip_drain (table : HttpErrorTable) (minB : Nat)
    (errOf : String → Option HttpErr) :
    ∀ (l : List String) (st : RState), l.Nodup → st.pending.Nodup →
      (∀ id ∈ l, id ∈ st.pending) →
      (∀ id ∈ l, errOf id = none ∨ ∃ e, errOf id = some e ∧
        ∃ p, (table.matching e).1 = some p ∧ p.action = HttpErrorPolicy.SKIP) →
      ∃ st', processFold table minB errOf l st = .ok st' ∧
        st'.pending = st.pending.filter (fun i => decide (i ∉ l)) ∧
        st'.yielded = st.yielded ++ l.filter (fun i => (errOf i).isNone) := by
  intro l
  induction l with
  | nil =>
    intro st _ _ _ _
    exact ⟨st, rfl, by simp, by simp⟩
  | cons id l ih =>
    intro st hnd hpnd hsub hok
    have hid : id ∈ st.pending := hsub id (List.mem_cons_self id l)
    have hidl : id ∉ l := (List.nodup_cons.mp hnd).1
    have hndl : l.Nodup := (List.nodup_cons.mp hnd).2
    have hpred : ∀ i : String, (decide (i ∉ l) && (i != id)) = decide (i ∉ id :: l) := by
      intro i
      by_cases h1 : i = id <;> by_cases h2 : i ∈ l <;> simp [h1, h2]
    rcases hok id (List.mem_cons_self id l) with hnone | ⟨e, he, p, hm, ha⟩
    · obtain ⟨st', hf, hp, hy⟩ := ih
        ⟨st.pending.erase id, st.warnings, 1, minB, st.yielded ++ [id]⟩
        hndl (hpnd.erase id)
        (fun i hi => by
          have hne : i ≠ id := fun hcon => hidl (hcon ▸ hi)
          exact (List.mem_erase_of_ne hne).mpr (hsub i (List.mem_cons_of_mem id hi)))
        (fun i hi => hok i (List.mem_cons_of_mem id hi))
      refine ⟨st', ?_, ?_, ?_⟩
      · simp only [processFold, hnone, processResult_success]
        exact hf
      · rw [hp]
        show (st.pending.erase id).filter _ = _
        rw [hpnd.erase_eq_filter id, List.filter_filter]
        exact List.filter_congr (fun i _ => hpred i)
      · rw [hy]
        show st.yielded ++ [id] ++ _ = _
        rw [List.append_assoc]
        congr 1
        simp [List.filter_cons, hnone]
    · obtain ⟨st', hf, hp, hy⟩ := ih
        ⟨st.pending.erase id, (warnUpdate p (table.matching e).2 st).warnings,
         (warnUpdate p (table.matching e).2 st).attempts,
         (warnUpdate p (table.matching e).2 st).backoff, st.yielded⟩
        hndl (hpnd.erase id)
        (fun i hi => by
          have hne : i ≠ id := fun hcon => hidl (hcon ▸ hi)
          exact (List.mem_erase_of_ne hne).mpr (hsub i (List.mem_cons_of_mem id hi)))
        (fun i hi => hok i (List.mem_cons_of_mem id hi))
      refine ⟨st', ?_, ?_, ?_⟩
      · simp only [processFold, he, processResult_skip table minB st id e p hm ha]
        have hrec : ({ warnUpdate p (table.matching e).2 st with
            pending := st.pending.erase id } : RState) =
            ⟨st.pending.erase id, (warnUpdate p (table.matching e).2 st).warnings,
             (warnUpdate p (table.matching e).2 st).attempts,
             (warnUpdate p (table.matching e).2 st).backoff, st.yielded⟩ := by
          rw [warnUpdate_eq_set p (table.matching e).2 st]
        rw [hrec]
        exact hf
      · rw [hp]
        show (st.pending.erase id).filter _ = _
        rw [hpnd.erase_eq_filter id, List.filter_filter]
        exact List.filter_congr (fun i _ => hpred i)
      · rw [hy]
        show st.yielded ++ _ = _
        congr 1
        simp [List.filter_cons, he]

/-- C4: for every input collection of operations in which every erroring
operation's error matches a Skip policy, `execute` terminates after a
single pass (no retries consumed), yielding exactly the non-erroring
outcomes in submission order; erroring (skipped) operations are removed
from `pending` and never appear among the yielded results. -/
theorem spec_C4_skip_idempotence (cfg : RunCfg) (table : HttpErrorTable)
    (oracle : Nat → String → Option HttpErr) (elapsed : Nat → Nat) (ids : List String)
    (hnd : ids.Nodup)
    (htime : timeOk cfg.timeout (elapsed 0) = true)
    (hmr : 1 ≤ cfg.max_retries)
    (hskip : ∀ id ∈ ids, ∀ e, oracle 0 id = some e →
      ∃ p, (table.matching e).1 = some p ∧ p.action = HttpErrorPolicy.SKIP) :
    execute cfg table oracle elapsed ids =
      (.ok (ids.filter (fun id => (oracle 0 id).isNone)), 1) := by
  unfold execute
  obtain ⟨st', hf, hp, hy⟩ := processFold_skip_drain table cfg.min_backoff (oracle 0) ids
    ⟨ids, [], 1, cfg.min_backoff, []⟩ hnd hnd (fun _ hi => hi)
    (fun i hi => by
      cases hoi : oracle 0 i with
      | none => exact Or.inl rfl
      | some e => exact Or.inr ⟨e, rfl, hskip i hi e hoi⟩)
  have hg : timeOk cfg.timeout (elapsed 0) = true ∧
      (⟨ids, [], 1, cfg.min_backoff, []⟩ : RState).attempts ≤ cfg.max_retries :=
    ⟨htime, by show 1 ≤ _; omega⟩
  have hrp : runPass table cfg.min_backoff (oracle 0)
      ⟨ids, [], 1, cfg.min_backoff, []⟩ = .ok st' := hf
  have hpe : st'.pending.isEmpty = true := by
    rw [hp]
    simp only [List.isEmpty_eq_true, List.filter_eq_nil_iff]
    intro a ha
    simp [ha]
  simp only [loop, hg, and_self, if_true, hrp, hpe, if_true]
  rw [hy]
  rfl

/-- Witness for C4 at a concrete input: requests "a", "b", "c" against the
default table, where only "b" errors (with a 404, whose default policy is
Skip): the runner finishes in one pass yielding exactly "a" and "c". -/
theorem spec_C4_skip_idempotence_witness :
    execute ⟨5, 10, none⟩ DEFAULT_POLICIES
      (fun _ id => if id = "b" then some ⟨"404", none⟩ else none)
      (fun _ => 0) ["a", "b", "c"] = (.ok ["a", "c"], 1) := by
  have h := spec_C4_skip_idempotence ⟨5, 10, none⟩ DEFAULT_POLICIES
    (fun _ id => if id = "b" then some ⟨"404", none⟩ else none) (fun _ => 0)
    ["a", "b", "c"] (by decide) (by decide) (by decide)
    (by
      intro id hid e he
      have hid3 : id = "a" ∨ id = "b" ∨ id = "c" := by simpa using hid
      rcases hid3 with h1 | h1 | h1 <;> subst h1
      · simp at he
      · have he2 : (⟨"404", none⟩ : HttpErr) = e := by
          have hs : (some (⟨"404", none⟩ : HttpErr)) = some e := by simpa using he
          exact Option.some.inj hs
        subst he2
        exact ⟨{ codes := ["404"],
                 reasons := none,
                 print_always := true,
                 action := HttpErrorPolicy.SKIP,
                 warning := "Request {rid} resulted in a 404 (not found) and has been skipped. Is your snapshot stale?" },
          by decide, rfl⟩
      · simp at he)
  rw [h]
  rfl

/-- C5: for the synthetic hierarchy root → A → B → leaf (the root being the
unmaterialized anchor: `A` is a top-level folder with no recorded parents,
which is the base case of the path walk), `resolve_paths` computes the
path `[B, A]` for the leaf and `ResourcePath.toStr` renders it as
`/A/B/leaf`; and for any resource whose parents sequence has more than one
element, path resolution raises the structural multi-parent error, also
through `resolve_paths` on the concrete two-parent resource. -/
theorem spec_C5_path_resolution :
    (resolve_paths 10 synthFetch [resLeaf] =
       .ok [(resLeaf, ⟨resLeaf, [resB, resA]⟩)] ∧
     (ResourcePath.mk resLeaf [resB, resA]).toStr = "/A/B/leaf") ∧
    (∀ (fuel : Nat) (table : List (String × Resource)) (r : Resource),
       2 ≤ r.parents.length →
       resource_path (fuel + 1) table r = .error .multiParent) ∧
    resolve_paths 10 synthFetch [resMulti] = .error .multiParent := by
  refine ⟨⟨by decide, by decide⟩, ?_, by decide⟩
  intro fuel table r hlen
  cases hp : r.parents with
  | nil => rw [hp] at hlen; simp at hlen
  | cons p1 rest =>
    cases rest with
    | nil => rw [hp] at hlen; simp at hlen
    | cons p2 rest2 =>
      simp only [resource_path, hp]

/-- Witness for C5's universally quantified multi-parent clause, at the
concrete two-parent resource and an empty table. -/
theorem spec_C5_path_resolution_witness :
    resource_path 1 [] resMulti = .error .multiParent :=
  spec_C5_path_resolution.2.1 0 [] resMulti (by decide)

/-- C8 counterexample: running `_sync` with a fresh (unstored) checkpoint
and the dry-run flag set produces exactly one checkpoint event — the
persist — and no clear, refuting the claim that in dry-run mode the
checkpoint is cleared immediately without ever being persisted. -/
theorem spec_C8_counterexample :
    syncEvents false true true = [SyncEv.store] ∧
    SyncEv.store ∈ syncEvents false true true ∧
    SyncEv.clear ∉ syncEvents false true true := by
  decide

/-- C8 (amended): in dry-run mode the checkpoint is persisted when not
already stored and is never cleared (the run returns before uploading
anything); in a non-dry-run sync the checkpoint is persisted (when not
already stored) before the uploads begin, and it is cleared, after the
uploads, exactly when all queued uploads complete successfully. -/
theorem spec_C8_checkpoint_protocol (stored uploads_ok : Bool) :
    (syncEvents stored true uploads_ok = if stored then [] else [SyncEv.store]) ∧
    SyncEv.clear ∉ syncEvents stored true uploads_ok ∧
    (syncEvents stored false uploads_ok =
      (if stored then [] else [SyncEv.store]) ++
      (if uploads_ok then [SyncEv.upload, SyncEv.clear] else [SyncEv.upload])) ∧
    (SyncEv.clear ∈ syncEvents stored false uploads_ok ↔ uploads_ok = true) := by
  cases stored <;> cases uploads_ok <;> decide

/-- C9: calling `unique` on an empty resource list with `allow_none = true`
does not return a value or a `None` sentinel: both guard conditions are
false, control falls through to the final branch, and `resources[0]`
fails with an out-of-bounds index error, so the `allow_none` escape hatch
can never succeed on an empty list. -/
theorem spec_C9_unique_empty_allow_none (α : Type) (allow_multiple : Bool) :
    unique ([] : List α) true allow_multiple = .error .indexOut := by
  simp [unique]

/-- C10: `SyncState.store` sets `stored = True` before the write, rolls it
back to `False` in the error branch when the serialization or write
raises (so `stored` is `False` after the exception propagates), and after
the call `stored` is `True` exactly when the write attempt did not
raise. -/
theorem spec_C10_store_stored_rollback (st : SyncStateM) :
    ((st.store false).1.stored = false ∧ (st.store false).2 = .error ()) ∧
    ((st.store true).1.stored = true ∧ (st.store true).2 = .ok ()) ∧
    (∀ write_ok : Bool, (st.store write_ok).1.stored = write_ok) := by
  refine ⟨⟨rfl, rfl⟩, ⟨rfl, rfl⟩, ?_⟩
  intro w
  cases w <;> rfl

theorem firstMinBy_isSome {α : Type} (le : α → α → Bool) (a : α) (l : List α) :
    ∃ m, firstMinBy le (a :: l) = some m := by
  induction l generalizing a with
  | nil => exact ⟨a, rfl⟩
  | cons b t ih =>
    obtain ⟨m, hm⟩ := ih b
    have hdef : firstMinBy le (a :: b :: t) =
        match firstMinBy le (b :: t) with
        | none => some a
        | some m => some (if le a m then a else m) := rfl
    rw [hdef, hm]
    exact ⟨if le a m then a else m, rfl⟩

theorem firstMinBy_mem {α : Type} (le : α → α → Bool) :
    ∀ (l : List α) (m : α), firstMinBy le l = some m → m ∈ l := by
  intro l
  induction l with
  | nil => intro m h; cases h
  | cons a t ih =>
    intro m h
    simp only [firstMinBy] at h
    cases ht : firstMinBy le t with
    | none => rw [ht] at h; cases h; exact List.mem_cons_self a t
    | some m' =>
      rw [ht] at h
      cases h
      by_cases hle : le a m' = true
      · simp [hle]
      · simp only [hle, if_false]
        exact List.mem_cons_of_mem a (ih m' ht)

theorem head_mergeSort_eq_firstMinBy {α : Type} (le : α → α → Bool)
    (htrans : ∀ a b c, le a b → le b c → le a c)
    (htotal : ∀ a b, le a b || le b a) :
    ∀ l : List α, (l.mergeSort le).head? = firstMinBy le l := by
  intro l
  induction l with
  | nil => simp [firstMinBy]
  | cons a t ih =>
    obtain ⟨l₁, l₂, h1, h2, h3⟩ := List.mergeSort_cons htrans htotal a t
    cases l₁ with
    | nil =>
      simp only [List.nil_append] at h1 h2
      rw [h1]
      simp only [List.head?_cons]
      cases ht : firstMinBy le t with
      | none => simp [firstMinBy, ht]
      | some m =>
        have hm : m ∈ t := firstMinBy_mem le t m ht
        have hs : (List.mergeSort (a :: t) le).Pairwise (fun x y => le x y) :=
          List.sorted_mergeSort htrans htotal (a :: t)
        rw [h1] at hs
        have hml2 : m ∈ l₂ := by
          rw [← h2]
          exact List.mem_mergeSort.mpr hm
        have ham : le a m = true := (List.pairwise_cons.mp hs).1 m hml2
        simp [firstMinBy, ht, ham]
    | cons c l₁' =>
      rw [h1]
      have hc : ¬ le a c = true := by
        have := h3 c (List.mem_cons_self c l₁')
        simp only [Bool.not_eq_true'] at this
        simp [this]
      have hth : (List.mergeSort t le).head? = some c := by
        rw [h2]
        rfl
      rw [ih] at hth
      simp [firstMinBy, hth, hc]

theorem leRank_trans (x y z : Resource × Nat) :
    leRank x y → leRank y z → leRank x z := by
  simp only [leRank, decide_eq_true_eq]
  omega

theorem leRank_total (x y : Resource × Nat) : leRank x y || leRank y x := by
  simp only [leRank]
  rcases Nat.le_total x.2 y.2 with h | h <;> simp [h]

theorem firstPrefixIdx_eq_findIdx (path : ResourcePath) :
    ∀ (prefs : List String) (i : Nat),
      firstPrefixIdx path i prefs = prefs.findIdx? (fun p => path.startswith p) i := by
  intro prefs
  induction prefs with
  | nil => intro i; rfl
  | cons p ps ih =>
    intro i
    simp only [firstPrefixIdx, List.findIdx?_cons]
    by_cases hp : path.startswith p = true
    · simp [hp]
    · simp only [Bool.not_eq_true] at hp
      simp [hp, ih]

theorem rank_ok_iff (prefs : List String) :
    ∀ (paths : List ResourcePath) (ranks : List Nat),
      rank prefs paths = .ok ranks ↔
      List.Forall₂ (fun path r => prefs.findIdx? (fun p => path.startswith p) = some r)
        paths ranks := by
  intro paths
  induction paths with
  | nil =>
    intro ranks
    constructor
    · intro h
      cases h
      exact List.Forall₂.nil
    · intro h
      cases h
      rfl
  | cons path tl ih =>
    intro ranks
    simp only [rank]
    cases hf : firstPrefixIdx path 0 prefs with
    | none =>
      constructor
      · intro h
        cases h
      · intro h
        cases h with
        | cons hr _ =>
          rw [firstPrefixIdx_eq_findIdx path prefs 0] at hf
          rw [hf] at hr
          cases hr
    | some i =>
      cases ht : rank prefs tl with
      | error err =>
        constructor
        · intro h
          cases h
        · intro h
          cases h with
          | cons _ htail =>
            rw [← ih _] at htail
            rw [ht] at htail
            cases htail
      | ok rs =>
        constructor
        · intro h
          cases h
          refine List.Forall₂.cons ?_ ((ih rs).mp ht)
          rw [← firstPrefixIdx_eq_findIdx path prefs 0, hf]
        · intro h
          cases h with
          | cons hr htail =>
            rw [← ih _] at htail
            rw [ht] at htail
            cases htail
            rw [← firstPrefixIdx_eq_findIdx path prefs 0, hf] at hr
            cases hr
            rfl

theorem rank_unmatched (prefs : List String) :
    ∀ (paths : List ResourcePath),
      (∃ path ∈ paths, prefs.findIdx? (fun p => path.startswith p) = none) →
      rank prefs paths = .error .unmatched := by
  intro paths
  induction paths with
  | nil =>
    intro h
    obtain ⟨_, hmem, _⟩ := h
    cases hmem
  | cons path tl ih =>
    intro h
    simp only [rank]
    obtain ⟨q, hmem, hq⟩ := h
    rcases List.mem_cons.mp hmem with hh | htl
    · subst hh
      rw [show firstPrefixIdx q 0 prefs = none from by
        rw [firstPrefixIdx_eq_findIdx q prefs 0]; exact hq]
    · cases hf : firstPrefixIdx path 0 prefs with
      | none => rfl
      | some i =>
        rw [ih ⟨q, htl, hq⟩]

/-- C6: for every duplicate group and ordered prefix-preference list, the
ranks produced by `rank` are exactly the indexes of the first prefix each
resolved path matches (in preference order); a path matching no prefix
makes `rank` raise, aborting the whole run; and within a group the head of
the stable sort — the member kept by `dedup_apply` — is the first-seen
member of lowest rank (`firstMinBy`, which breaks ties toward the earlier
element), has a rank no larger than every member of the group, and every
other member, no more and no fewer, is queued for deletion. -/
theorem spec_C6_duplicate_ranking (prefs : List String) (entries : List Resource)
    (paths : List ResourcePath) (ranks : List Nat) :
    (rank prefs paths = .ok ranks ↔
      List.Forall₂ (fun path r => prefs.findIdx? (fun p => path.startswith p) = some r)
        paths ranks) ∧
    ((∃ path ∈ paths, prefs.findIdx? (fun p => path.startswith p) = none) →
      rank prefs paths = .error .unmatched) ∧
    (dedup_selection entries ranks).head? = firstMinBy leRank (entries.zip ranks) ∧
    (∀ m, dedup_kept entries ranks = some m →
      m ∈ entries.zip ranks ∧ ∀ x ∈ entries.zip ranks, m.2 ≤ x.2) ∧
    (∀ m, dedup_kept entries ranks = some m →
      (m.1 :: dedup_deletions entries ranks).Perm ((entries.zip ranks).map (fun x => x.1))) := by
  refine ⟨rank_ok_iff prefs paths ranks, rank_unmatched prefs paths, ?_, ?_, ?_⟩
  · exact head_mergeSort_eq_firstMinBy leRank leRank_trans leRank_total (entries.zip ranks)
  · intro m hm
    obtain ⟨rest, hrest⟩ := List.head?_eq_some_iff.mp hm
    have hsorted : (dedup_selection entries ranks).Pairwise (fun x y => leRank x y) :=
      List.sorted_mergeSort leRank_trans leRank_total (entries.zip ranks)
    have hperm : (dedup_selection entries ranks).Perm (entries.zip ranks) :=
      List.mergeSort_perm (entries.zip ranks) leRank
    constructor
    · exact hperm.mem_iff.mp (by rw [hrest]; exact List.mem_cons_self m rest)
    · intro x hx
      have hx2 : x ∈ dedup_selection entries ranks := hperm.mem_iff.mpr hx
      rw [hrest] at hx2 hsorted
      rcases List.mem_cons.mp hx2 with hxm | hxr
      · subst hxm
        omega
      · have := (List.pairwise_cons.mp hsorted).1 x hxr
        simpa [leRank] using this
  · intro m hm
    obtain ⟨rest, hrest⟩ := List.head?_eq_some_iff.mp hm
    have hperm : (dedup_selection entries ranks).Perm (entries.zip ranks) :=
      List.mergeSort_perm (entries.zip ranks) leRank
    rw [hrest] at hperm
    have hdel : dedup_deletions entries ranks = rest.map (fun x => x.1) := by
      unfold dedup_deletions
      rw [hrest]
      rfl
    rw [hdel]
    have := hperm.map (fun x : Resource × Nat => x.1)
    simpa using this

/-- Witness for C6 at a concrete input: duplicates at /Pictures/New/x.jpg
and /Pictures/Old/x.jpg with preference list
["/Pictures/New/", "/Pictures/Old/"] rank as [0, 1]; the New copy is kept
(it is in the group and its rank is no larger than the Old copy's) and the
Old copy is queued for deletion; the path /Other/x.jpg matches no prefix
and makes `rank` abort. -/
theorem spec_C6_duplicate_ranking_witness :
    rank ["/Pictures/New/", "/Pictures/Old/"] [pNew, pOld] = .ok [0, 1] ∧
    dedup_kept [rNew, rOld] [0, 1] = some (rNew, 0) ∧
    dedup_deletions [rNew, rOld] [0, 1] = [rOld] ∧
    (rNew, 0) ∈ ([rNew, rOld].zip [0, 1]) ∧
    ((rNew, 0) : Resource × Nat).2 ≤ ((rOld, 1) : Resource × Nat).2 ∧
    rank ["/Pictures/New/", "/Pictures/Old/"] [pOther] = .error .unmatched := by
  have hkept : dedup_kept [rNew, rOld] [0, 1] = some (rNew, 0) := by
    unfold dedup_kept dedup_selection
    simp [List.mergeSort, leRank]
  refine ⟨?_, hkept, ?_, ?_, ?_, ?_⟩
  · decide
  · unfold dedup_deletions dedup_selection
    simp [List.mergeSort, leRank]
  · exact ((spec_C6_duplicate_ranking ["/Pictures/New/", "/Pictures/Old/"] [rNew, rOld]
      [pNew, pOld] [0, 1]).2.2.2.1 (rNew, 0) hkept).1
  · exact ((spec_C6_duplicate_ranking ["/Pictures/New/", "/Pictures/Old/"] [rNew, rOld]
      [pNew, pOld] [0, 1]).2.2.2.1 (rNew, 0) hkept).2 (rOld, 1) (by decide)
  · exact (spec_C6_duplicate_ranking ["/Pictures/New/", "/Pictures/Old/"] [rNew, rOld]
      [pOther] [0, 1]).2.1 ⟨pOther, List.mem_cons_self pOther [], by decide⟩

theorem mem_localHashes (files : List LocalFile) (h : String) :
    h ∈ localHashes files ↔ ∃ f ∈ files, f.md5_checksum = h := by
  unfold localHashes
  rw [List.mem_dedup]
  simp

theorem localGroup_head_md5 (files : List LocalFile) (h : String) (f : LocalFile)
    (hf : (localGroup files h).head? = some f) :
    f ∈ files ∧ f.md5_checksum = h := by
  have hmem : f ∈ localGroup files h := by
    obtain ⟨t, ht⟩ := List.head?_eq_some_iff.mp hf
    rw [ht]
    exact List.mem_cons_self f t
  unfold localGroup at hmem
  have := List.mem_filter.mp hmem
  refine ⟨this.1, by simpa using this.2⟩

theorem localGroup_head_isSome (files : List LocalFile) (h : String)
    (hh : ∃ f ∈ files, f.md5_checksum = h) :
    ∃ f, (localGroup files h).head? = some f := by
  obtain ⟨f, hf, hmd⟩ := hh
  have hmem : f ∈ localGroup files h := by
    unfold localGroup
    rw [List.mem_filter]
    exact ⟨hf, by simpa using hmd⟩
  cases hg : localGroup files h with
  | nil => rw [hg] at hmem; cases hmem
  | cons a t => exact ⟨a, rfl⟩

theorem mem_to_sync (files : List LocalFile) (remote : List (Option String)) (h : String) :
    h ∈ to_sync files remote ↔ h ∈ localHashes files ∧ ¬ (some h ∈ remote) := by
  unfold to_sync
  rw [List.mem_filter]
  simp

theorem uploads_mem_iff (files : List LocalFile) (remote : List (Option String)) (f : LocalFile) :
    f ∈ uploads files remote ↔
      ∃ h ∈ to_sync files remote, (localGroup files h).head? = some f := by
  unfold uploads
  rw [List.mem_filterMap]

theorem uploads_md5_iff (files : List LocalFile) (remote : List (Option String)) (h : String) :
    h ∈ (uploads files remote).map (fun f => f.md5_checksum) ↔
      (h ∈ files.map (fun f => f.md5_checksum) ∧ ¬ (some h ∈ remote)) := by
  rw [List.mem_map]
  constructor
  · rintro ⟨f, hf, hmd⟩
    obtain ⟨h', hh', hhead⟩ := (uploads_mem_iff files remote f).mp hf
    obtain ⟨hfin, hfmd⟩ := localGroup_head_md5 files h' f hhead
    have hh2 : h' = h := hfmd.symm.trans hmd
    subst hh2
    obtain ⟨hloc, hrem⟩ := (mem_to_sync files remote h').mp hh'
    exact ⟨List.mem_map.mpr ⟨f, hfin, hmd⟩, hrem⟩
  · rintro ⟨hloc, hrem⟩
    obtain ⟨f, hfin, hfmd⟩ := List.mem_map.mp hloc
    have hts : h ∈ to_sync files remote :=
      (mem_to_sync files remote h).mpr
        ⟨(mem_localHashes files h).mpr ⟨f, hfin, hfmd⟩, hrem⟩
    obtain ⟨f0, hf0⟩ := localGroup_head_isSome files h ⟨f, hfin, hfmd⟩
    refine ⟨f0, (uploads_mem_iff files remote f0).mpr ⟨h, hts, hf0⟩, ?_⟩
    exact (localGroup_head_md5 files h f0 hf0).2

theorem filterMap_group_filter (files : List LocalFile) :
    ∀ (l : List String), l.Nodup →
      (∀ h' ∈ l, ∃ f ∈ files, f.md5_checksum = h') →
      ∀ h ∈ l,
      (l.filterMap (fun h' => (localGroup files h').head?)).filter
         (fun f => f.md5_checksum = h) = (localGroup files h).take 1 := by
  intro l
  induction l with
  | nil =>
    intro _ _ h hmem
    cases hmem
  | cons h0 l ih =>
    intro hnd hne h hmem
    have hh0 : ∃ f ∈ files, f.md5_checksum = h0 := hne h0 (List.mem_cons_self h0 l)
    obtain ⟨f0, hf0⟩ := localGroup_head_isSome files h0 hh0
    rw [List.filterMap_cons, hf0]
    have hmd0 : f0.md5_checksum = h0 := (localGroup_head_md5 files h0 f0 hf0).2
    rcases List.mem_cons.mp hmem with hh | htl
    · subst hh
      have hkeep : (f0.md5_checksum = h) := hmd0
      rw [List.filter_cons_of_pos (by simpa using hkeep)]
      have hrest : (l.filterMap (fun h' => (localGroup files h').head?)).filter
          (fun f => f.md5_checksum = h) = [] := by
        rw [List.filter_eq_nil_iff]
        intro f' hf'
        obtain ⟨h', hh', hhead'⟩ := List.mem_filterMap.mp hf'
        have hmd' : f'.md5_checksum = h' := (localGroup_head_md5 files h' f' hhead').2
        have hne' : h' ≠ h := fun hcon => (List.nodup_cons.mp hnd).1 (hcon ▸ hh')
        simp [hmd', hne']
      rw [hrest]
      obtain ⟨t, ht⟩ := List.head?_eq_some_iff.mp hf0
      unfold localGroup at ht ⊢
      rw [ht]
      rfl
    · have hne0 : f0.md5_checksum ≠ h := by
        rw [hmd0]
        exact fun hcon => (List.nodup_cons.mp hnd).1 (hcon ▸ htl)
      rw [List.filter_cons_of_neg (by simpa using hne0)]
      exact ih (List.nodup_cons.mp hnd).2
        (fun h' hh' => hne h' (List.mem_cons_of_mem h0 hh')) h htl

theorem to_sync_nodup (files : List LocalFile) (remote : List (Option String)) :
    (to_sync files remote).Nodup := by
  unfold to_sync localHashes
  exact (List.nodup_dedup _).filter _

theorem remoteHashes_merge (ss : Snapshot) (ups : List LocalFile) :
    remoteHashes (ss.merge ⟨ups.map uploadedEntry⟩) =
      remoteHashes ss ++ ups.map (fun f => some f.md5_checksum) := by
  unfold remoteHashes Snapshot.merge
  rw [List.filter_append, List.map_append]
  congr 1
  have hall : (ups.map uploadedEntry).filter (fun e => decide (e.kind = RKind.file)) =
      ups.map uploadedEntry := by
    rw [List.filter_eq_self]
    intro e he
    obtain ⟨f, _, hfe⟩ := List.mem_map.mp he
    subst hfe
    simp [uploadedEntry]
  rw [hall, List.map_map]
  rfl

theorem uploads_eq_nil_of (files : List LocalFile) (remote : List (Option String))
    (h : to_sync files remote = []) : uploads files remote = [] := by
  unfold uploads
  rw [h]
  rfl

/-- C7: for every set of local files and every exclusion snapshot, the
upload set is exactly the set difference of the local hashes and the
remote hashes (the latter drawn from content-bearing `DriveFile` entries
only); for every missing hash, exactly one local file — the first in
enumeration order among those sharing the hash — is queued; and re-running
the diff against the snapshot merged with the just-uploaded files yields
an empty upload set (convergence). -/
theorem spec_C7_sync_diff_exactness (files : List LocalFile) (ss : Snapshot) :
    (∀ h, h ∈ (uploads files (remoteHashes ss)).map (fun f => f.md5_checksum) ↔
       (h ∈ files.map (fun f => f.md5_checksum) ∧ ¬ (some h ∈ remoteHashes ss))) ∧
    (∀ h, ¬ (some h ∈ remoteHashes ss) → h ∈ files.map (fun f => f.md5_checksum) →
       (uploads files (remoteHashes ss)).filter (fun f => f.md5_checksum = h) =
         (localGroup files h).take 1) ∧
    uploads files (remoteHashes (ss.merge
      ⟨(uploads files (remoteHashes ss)).map uploadedEntry⟩)) = [] := by
  refine ⟨fun h => uploads_md5_iff files (remoteHashes ss) h, ?_, ?_⟩
  · intro h hrem hloc
    obtain ⟨f, hfin, hfmd⟩ := List.mem_map.mp hloc
    have hts : h ∈ to_sync files (remoteHashes ss) :=
      (mem_to_sync files (remoteHashes ss) h).mpr
        ⟨(mem_localHashes files h).mpr ⟨f, hfin, hfmd⟩, hrem⟩
    exact filterMap_group_filter files (to_sync files (remoteHashes ss))
      (to_sync_nodup files (remoteHashes ss))
      (fun h' hh' => (mem_localHashes files h').mp
        ((mem_to_sync files (remoteHashes ss) h').mp hh').1)
      h hts
  · have hts : to_sync files (remoteHashes (ss.merge
        ⟨(uploads files (remoteHashes ss)).map uploadedEntry⟩)) = [] := by
      unfold to_sync
      rw [List.filter_eq_nil_iff]
      intro h hh
      simp only [decide_eq_true_eq, Decidable.not_not, not_not]
      rw [remoteHashes_merge]
      rw [List.mem_append]
      by_cases hrem : some h ∈ remoteHashes ss
      · exact Or.inl hrem
      · refine Or.inr ?_
        have hloc : h ∈ files.map (fun f => f.md5_checksum) := by
          obtain ⟨f, hfin, hfmd⟩ := (mem_localHashes files h).mp hh
          exact List.mem_map.mpr ⟨f, hfin, hfmd⟩
        have hups : h ∈ (uploads files (remoteHashes ss)).map (fun f => f.md5_checksum) :=
          (uploads_md5_iff files (remoteHashes ss) h).mpr ⟨hloc, hrem⟩
        obtain ⟨f, hfin, hfmd⟩ := List.mem_map.mp hups
        exact List.mem_map.mpr ⟨f, hfin, by rw [hfmd]⟩
    exact uploads_eq_nil_of files _ hts

/-- Witness for C7 at a concrete input: local files with hashes
h1, h2, h3, h1 (two files sharing h1) and a remote snapshot covering
h2: h1 is in the upload set, and the h1 slot of the upload list is
exactly the take-1 of the h1 group, that is, the first file "p1". -/
theorem spec_C7_sync_diff_exactness_witness :
    ((uploads [⟨"p1", "m", "h1"⟩, ⟨"p2", "m", "h2"⟩, ⟨"p3", "m", "h3"⟩, ⟨"p4", "m", "h1"⟩]
        (remoteHashes ⟨[⟨"r2", "f2", "m", [], some "h2", RKind.file⟩]⟩)).filter
        (fun f => f.md5_checksum = "h1") =
      (localGroup [⟨"p1", "m", "h1"⟩, ⟨"p2", "m", "h2"⟩, ⟨"p3", "m", "h3"⟩, ⟨"p4", "m", "h1"⟩]
        "h1").take 1) ∧
    "h1" ∈ (uploads [⟨"p1", "m", "h1"⟩, ⟨"p2", "m", "h2"⟩, ⟨"p3", "m", "h3"⟩, ⟨"p4", "m", "h1"⟩]
        (remoteHashes ⟨[⟨"r2", "f2", "m", [], some "h2", RKind.file⟩]⟩)).map
        (fun f => f.md5_checksum) := by
  constructor
  · exact (spec_C7_sync_diff_exactness
      [⟨"p1", "m", "h1"⟩, ⟨"p2", "m", "h2"⟩, ⟨"p3", "m", "h3"⟩, ⟨"p4", "m", "h1"⟩]
      ⟨[⟨"r2", "f2", "m", [], some "h2", RKind.file⟩]⟩).2.1 "h1" (by decide) (by decide)
  · exact ((spec_C7_sync_diff_exactness
      [⟨"p1", "m", "h1"⟩, ⟨"p2", "m", "h2"⟩, ⟨"p3", "m", "h3"⟩, ⟨"p4", "m", "h1"⟩]
      ⟨[⟨"r2", "f2", "m", [], some "h2", RKind.file⟩]⟩).1 "h1").mpr ⟨by decide, by decide⟩
